import Mathlib

/-!
Verification of the `textual_terminal/_terminal.py` core: the color resolver
(`Terminal.detect_color`), the style builder (`Terminal.char_rich_style`),
the style comparison (`Terminal.char_style_cmp`), the per-row styled-run loop
inside `Terminal.recv`, the DECSET mouse-tracking scanner, the
`TerminalEmulator._run` message handlers (stdin / set_size / click), and the
reader-to-relay disconnect protocol (`_run.on_output` / `_send_data`).

Each Python routine is embedded as an executable Lean definition; theorems
below settle the specification claims against these definitions.
-/

namespace TextualTerminal

/-- A `pyte.screens.Char` cell: character data plus the style attributes the
widget reads (`data`, `fg`, `bg`, `bold`, `italics`, `underscore`,
`strikethrough`, `reverse`, `blink`). -/
structure PChar where
  data : String
  fg : String
  bg : String
  bold : Bool
  italics : Bool
  underscore : Bool
  strikethrough : Bool
  reverse : Bool
  blink : Bool
deriving Repr, DecidableEq

/-- pyte's default cell: a space with default colors and all attributes off
(what `screen.buffer[y][x]` yields for an untouched position). -/
def defaultChar : PChar :=
  { data := " ", fg := "default", bg := "default", bold := false,
    italics := false, underscore := false, strikethrough := false,
    reverse := false, blink := false }

/-- `[0-9a-f]` with `re.IGNORECASE`: an ASCII hex digit of either case. -/
def isHexCI (c : Char) : Bool :=
  c.isDigit || ('a' ≤ c && c ≤ 'f') || ('A' ≤ c && c ≤ 'F')

/-- `re.match(r"[0-9a-f]{6}", color, re.IGNORECASE)`: `re.match` anchors at
the start of the string only, so it succeeds whenever the FIRST six
characters are hex digits — longer strings still match. -/
def matchHex6 (s : String) : Bool :=
  (s.toList.take 6).length = 6 && (s.toList.take 6).all isHexCI

/-- `Terminal.detect_color`: `brown` ↦ `yellow`, `brightblack` ↦ `#808080`,
a string whose first six characters are hex digits gets a `#` prefix,
anything else is returned unchanged. -/
def detect_color (color : String) : String :=
  if color = "brown" then "yellow"
  else if color = "brightblack" then "#808080"
  else if matchHex6 color then "#" ++ color
  else color

/-- A `rich.style.Style` as far as this widget constructs one: the
constructor is only ever called with `color`, `bgcolor` and `bold`
(`char_rich_style`) or with the single word "reverse" (the cursor overlay),
so the remaining attributes are tracked as unset (`none`) / set options. -/
structure RStyle where
  color : Option String
  bgcolor : Option String
  bold : Option Bool
  italic : Option Bool
  underline : Option Bool
  strike : Option Bool
  reverse : Option Bool
  blink : Option Bool
deriving Repr, DecidableEq

/-- `Terminal.char_rich_style` (with `default_colors = "system"`, the
default; the `"textual"` theme branch only substitutes the two `"default"`
color tokens and is external to the claims): builds a style carrying only
the resolved foreground, resolved background and the bold flag. -/
def char_rich_style (c : PChar) : RStyle :=
  { color := some (detect_color c.fg), bgcolor := some (detect_color c.bg),
    bold := some c.bold, italic := none, underline := none, strike := none,
    reverse := none, blink := none }

/-- The style produced by `Text.stylize("reverse", x, x + 1)`: only the
reverse attribute is set. -/
def reverseStyle : RStyle :=
  { color := none, bgcolor := none, bold := none, italic := none,
    underline := none, strike := none, reverse := some true, blink := none }

/-- `Terminal.char_style_cmp`: attribute-by-attribute comparison of the full
eight-field style tuple. -/
def char_style_cmp (given other : PChar) : Bool :=
  given.fg == other.fg
  && given.bg == other.bg
  && given.bold == other.bold
  && given.italics == other.italics
  && given.underscore == other.underscore
  && given.strikethrough == other.strikethrough
  && given.reverse == other.reverse
  && given.blink == other.blink

/-- `line[x]` on a pyte buffer row: the stored cell, or the default cell for
positions the sparse row does not hold. -/
def cellD (line : List PChar) (i : Nat) : PChar :=
  line.getD i defaultChar

/-- One `Text.stylize(style, start, stop)` call recorded by the renderer:
the half-open span `[start, stop)` and the style applied to it. -/
structure Span where
  start : Nat
  stop : Nat
  style : RStyle
deriving Repr, DecidableEq

/-- The body of the per-row loop in `Terminal.recv` (`for x in
range(columns)`), processing the index list `xs` with current run start
`pos`; `n` is `screen.columns`, `cx` is `some (cursor.x)` when this row is
the cursor row (`cursor.y == y`) and `none` otherwise.  Per iteration, in
source order: if `x > 0` and the cell's style tuple differs from the
previous cell's (or `x` is the last column), a run span
`[style_change_pos, x + 1)` styled with the PREVIOUS cell's resolved style
is appended and the run start moves to `x`; then, if `x` is the cursor
column, the one-cell reverse overlay span is appended. -/
def lineGo (line : List PChar) (n : Nat) (cx : Option Nat) :
    List Nat → Nat → List Span
  | [], _ => []
  | x :: xs, pos =>
    let ov : List Span :=
      if cx = some x then [⟨x, x + 1, reverseStyle⟩] else []
    if x = 0 then
      ov ++ lineGo line n cx xs pos
    else
      if char_style_cmp (cellD line x) (cellD line (x - 1)) = false
          ∨ x = n - 1 then
        (⟨pos, x + 1, char_rich_style (cellD line (x - 1))⟩ :: ov)
          ++ lineGo line n cx xs x
      else
        ov ++ lineGo line n cx xs pos

/-- The style runs emitted for one row, without the cursor overlay (the
`line_text.stylize(last_style, style_change_pos, x + 1)` calls). -/
def renderLineSpans (line : List PChar) : List Span :=
  lineGo line line.length none (List.range line.length) 0

/-- The grid state read by the renderer: `screen.lines`, `screen.columns`,
`screen.buffer` and `screen.cursor`. -/
structure Grid where
  rows : Nat
  cols : Nat
  cell : Nat → Nat → PChar
  cursorX : Nat
  cursorY : Nat

/-- One rendered display line: the characters appended
(`line_text.append(char.data)`) and the stylize calls in their order. -/
structure RLine where
  text : List String
  spans : List Span
deriving Repr, DecidableEq

/-- Rendering of row `y`: the row's cells are `buffer[y][x]` for
`x in range(columns)`; spans come from `lineGo` with the overlay column
active exactly when `y` is the cursor row. -/
def renderLine (g : Grid) (y : Nat) : RLine :=
  let line := (List.range g.cols).map (fun x => g.cell y x)
  { text := line.map (fun c => c.data),
    spans := lineGo line g.cols
      (if g.cursorY = y then some g.cursorX else none)
      (List.range g.cols) 0 }

/-- The full display snapshot built by `Terminal.recv`: one rendered line
per row (`for y in range(screen.lines)`). -/
def renderSnapshot (g : Grid) : List RLine :=
  (List.range g.rows).map (renderLine g)

/-! ## Mode scanner (`Terminal.recv`, `stdout` branch, DECSET detection)

`_re_ansi_sequence = re.compile(r"(\x1b\[\??[\d;]*[a-zA-Z])")`; for every
match, a sequence starting with `DECSET_PREFIX = "\x1b[?"` has the prefix
removed and the remainder (parameter run INCLUDING the final letter) split
on `";"`; the literal tokens `"1000h"` / `"1000l"` then set / clear
`mouse_tracking`. -/

/-- `[\d;]`: a parameter character of the regex (decimal digit or
semicolon; terminal streams only carry ASCII digits here). -/
def isParamChar (c : Char) : Bool :=
  c.isDigit || c = ';'

/-- `[a-zA-Z]`: the final letter of the regex. -/
def isAsciiLetter (c : Char) : Bool :=
  ('a' ≤ c && c ≤ 'z') || ('A' ≤ c && c ≤ 'Z')

/-- `str.split(";")`: split on every semicolon, keeping empty pieces;
`acc` is the reversed current piece. -/
def splitSemiAux : List Char → List Char → List (List Char)
  | [], acc => [acc.reverse]
  | c :: cs, acc =>
    if c = ';' then acc.reverse :: splitSemiAux cs []
    else splitSemiAux cs (c :: acc)

/-- Match `[\d;]*[a-zA-Z]` at the start of `r2`: the greedy parameter run
followed by one letter.  Returns the run with the letter appended (what is
left of the sequence once `"\x1b[?"` is stripped) and the unconsumed tail. -/
def tryMatchCore (r2 : List Char) : Option (List Char × List Char) :=
  match r2.dropWhile isParamChar with
  | c :: tail =>
    if isAsciiLetter c then some (r2.takeWhile isParamChar ++ [c], tail)
    else none
  | [] => none

/-- Match `\x1b\[\??[\d;]*[a-zA-Z]` exactly at the start of the input:
returns whether the optional `?` was present, the parameter body (run plus
final letter), and the remaining input after the match. -/
def tryMatch : List Char → Option (Bool × List Char × List Char)
  | '\x1b' :: '[' :: '?' :: r2 =>
    (tryMatchCore r2).map (fun pr => (true, pr.1, pr.2))
  | '\x1b' :: '[' :: r2 =>
    (tryMatchCore r2).map (fun pr => (false, pr.1, pr.2))
  | _ => none

/-- The two `if` statements of the DECSET branch, in source order:
`"1000h" in parameters` sets the flag, then `"1000l" in parameters` clears
it. -/
def updateMT (parameters : List (List Char)) (m : Bool) : Bool :=
  let m1 := if parameters.contains "1000h".toList then true else m
  if parameters.contains "1000l".toList then false else m1

/-- The `re.finditer` loop over one `stdout` chunk, threading the
`mouse_tracking` flag: at each position try the sequence regex; on a match,
process it when it carries the `?` prefix and resume after the match; on no
match, advance one character.  `fuel` bounds the recursion and is
instantiated with the chunk length (each step consumes at least one
character, so the fuel never runs out). -/
def scanAux : Nat → List Char → Bool → Bool
  | 0, _, m => m
  | _ + 1, [], m => m
  | fuel + 1, c :: cs, m =>
    match tryMatch (c :: cs) with
    | some (q, body, tail) =>
      scanAux fuel tail (if q then updateMT (splitSemiAux body []) m else m)
    | none => scanAux fuel cs m

/-- `Terminal.recv`'s mouse-tracking update for one `stdout` chunk. -/
def scanChunk (s : String) (m : Bool) : Bool :=
  scanAux s.toList.length s.toList m

/-- Specification view of one matched sequence: the value the `1000h` /
`1000l` tokens of its parameter list assign to the flag, if any (`1000l`
wins when both occur, mirroring the statement order of the source). -/
def seqEffect (parameters : List (List Char)) : Option Bool :=
  if parameters.contains "1000l".toList then some false
  else if parameters.contains "1000h".toList then some true
  else none

/-- Specification view of a chunk: the ordered list of flag assignments
contributed by `?`-prefixed CSI sequences whose parameter list carries a
`1000h` or `1000l` token; every other sequence contributes nothing. -/
def mouseTokensAux : Nat → List Char → List Bool
  | 0, _ => []
  | _ + 1, [] => []
  | fuel + 1, c :: cs =>
    match tryMatch (c :: cs) with
    | some (q, body, tail) =>
      (if q then (seqEffect (splitSemiAux body [])).toList else [])
        ++ mouseTokensAux fuel tail
    | none => mouseTokensAux fuel cs

/-- The flag assignments appearing in a chunk, in order. -/
def mouseTokens (s : String) : List Bool :=
  mouseTokensAux s.toList.length s.toList

/-- The last element of `l`, or `m` when `l` is empty. -/
def lastD (l : List Bool) (m : Bool) : Bool :=
  l.foldl (fun _ b => b) m

/-! ## `TerminalEmulator._run` message handlers -/

/-- The SGR mouse press escape for 1-indexed `(x, y)`:
`f"\x1b[<0;{x};{y}M"`. -/
def sgrMousePress (x y : Nat) : String :=
  "\x1b[<0;" ++ toString x ++ ";" ++ toString y ++ "M"

/-- The SGR mouse release escape for 1-indexed `(x, y)`:
`f"\x1b[<0;{x};{y}m"`. -/
def sgrMouseRelease (x y : Nat) : String :=
  "\x1b[<0;" ++ toString x ++ ";" ++ toString y ++ "m"

/-- The `"click"` branch of `TerminalEmulator._run`: increments the
zero-indexed coordinates, and for button 1 writes the press/release pair to
the fd; any other button writes nothing.  The returned list is the sequence
of `p_out.write` payloads. -/
def handleClick (x y button : Nat) : List String :=
  if button = 1 then
    [sgrMousePress (x + 1) (y + 1), sgrMouseRelease (x + 1) (y + 1)]
  else []

/-- `struct.pack("H", v)`: an unsigned 16-bit field; values outside
`[0, 65536)` raise `struct.error`, modelled as `none`. -/
def packH (v : Int) : Option Nat :=
  if 0 ≤ v ∧ v < 65536 then some v.toNat else none

/-- The `"set_size"` branch of `TerminalEmulator._run`:
`struct.pack("HH", rows, cols)` then the `TIOCSWINSZ` ioctl with exactly the
packed values.  `some (r, c)` is the window size handed to the ioctl; `none`
is a `struct.error` that no `except` clause in `_run` catches, so it escapes
the message loop. -/
def setSizeIoctl (rows cols : Int) : Option (Nat × Nat) :=
  match packH rows, packH cols with
  | some r, some c => some (r, c)
  | _, _ => none

/-- The `"stdin"` branch of `TerminalEmulator._run`: exactly one
`self.p_out.write(msg[1].encode())` call; there is no loop and the returned
byte count is not inspected. -/
def stdinWriteCalls (payload : String) : List String :=
  [payload]

/-- A raw `write` on the unbuffered PTY file object (`os.fdopen(fd, "w+b",
0)` is an unbuffered `FileIO`): one syscall that may deliver only a prefix
of the data — here at most `accept` characters. -/
def writeSyscallDelivered (accept : Nat) (data : String) : Nat :=
  min accept data.toList.length

/-- Characters of a Stdin payload actually delivered to the fd when each
issued write call delivers at most `accept` of them. -/
def stdinDelivered (payload : String) (accept : Nat) : Nat :=
  ((stdinWriteCalls payload).map (writeSyscallDelivered accept)).sum

section Sanity

example : detect_color "brown" = "yellow" := by decide
example : detect_color "aabbcc" = "#aabbcc" := by decide
example : detect_color "AABBCC" = "#AABBCC" := by decide
example : detect_color "default" = "default" := by decide
example : detect_color "aabbcc00" = "#aabbcc00" := by decide

example :
    renderLineSpans [defaultChar, { defaultChar with bold := true }] =
      [⟨0, 2, char_rich_style defaultChar⟩] := by decide

example :
    renderLineSpans
        [defaultChar, defaultChar,
         { defaultChar with bold := true }, { defaultChar with bold := true }] =
      [⟨0, 3, char_rich_style defaultChar⟩,
       ⟨2, 4, char_rich_style { defaultChar with bold := true }⟩] := by decide

example : renderLineSpans [defaultChar] = [] := by decide

example : scanChunk "\x1b[?1000h" false = true := by decide
example : scanChunk "\x1b[?1000l" true = false := by decide
example : scanChunk "\x1b[1000h" false = false := by decide
example : scanChunk "\x1b[?1002;1000h" false = true := by decide
example : scanChunk "\x1b[?1000;1002h" false = false := by decide
example : scanChunk "abc\x1b[?1000hdef\x1b[?1000ly" true = false := by decide
example : mouseTokens "\x1b[?1000h\x1b[?1000l" = [true, false] := by decide
example : handleClick 5 3 1 = ["\x1b[<0;6;4M", "\x1b[<0;6;4m"] := by decide
example : handleClick 5 3 3 = [] := by decide
example : setSizeIoctl 40 10 = some (40, 10) := by decide

end Sanity

/-! ## Structural views of the emitted spans -/

/-- The full style tuple compared by `char_style_cmp`. -/
def styleKey (c : PChar) :
    String × String × Bool × Bool × Bool × Bool × Bool × Bool :=
  (c.fg, c.bg, c.bold, c.italics, c.underscore, c.strikethrough, c.reverse,
   c.blink)

/-- The span list forms a chain: the first span starts at `pos`, and every
following span starts one column before the previous span's stop. -/
def chainedB : Nat → List Span → Bool
  | _, [] => true
  | pos, s :: rest => decide (s.start = pos) && chainedB (s.stop - 1) rest

/-- The stop column of the last span, if any. -/
def lastStop (l : List Span) : Option Nat :=
  l.getLast?.map (fun s => s.stop)

/-- All pairs of adjacent spans of a list. -/
def adjPairs : List Span → List (Span × Span)
  | s :: t :: rest => (s, t) :: adjPairs (t :: rest)
  | _ => []

theorem char_style_cmp_iff (c d : PChar) :
    char_style_cmp c d = true ↔ styleKey c = styleKey d := by
  simp [char_style_cmp, styleKey, Bool.and_eq_true, beq_iff_eq, Prod.ext_iff,
    and_assoc]

theorem char_rich_style_ne_reverseStyle (c : PChar) :
    char_rich_style c ≠ reverseStyle := by
  intro h
  exact Option.noConfusion (congrArg RStyle.color h)

theorem lineGo_chained (line : List PChar) (n : Nat) :
    ∀ xs pos, chainedB pos (lineGo line n none xs pos) = true := by
  intro xs
  induction xs with
  | nil => intro pos; rfl
  | cons x xs ih =>
    intro pos
    simp only [lineGo]
    by_cases hx : x = 0
    · simpa [hx] using ih pos
    · by_cases hcond :
        char_style_cmp (cellD line x) (cellD line (x - 1)) = false ∨ x = n - 1
      · simpa [hx, hcond, chainedB] using ih x
      · simpa [hx, hcond] using ih pos

theorem lineGo_shape (line : List PChar) (n : Nat) (cx : Option Nat) :
    ∀ xs pos, (∀ x ∈ xs, x < n) → (∀ x ∈ xs, pos ≤ x) →
      List.Pairwise (· ≤ ·) xs →
      ∀ s ∈ lineGo line n cx xs pos,
        (s.style = reverseStyle ∧ cx = some s.start ∧
          s.stop = s.start + 1 ∧ s.start ∈ xs) ∨
        (∃ x, x ∈ xs ∧ x ≠ 0 ∧ s.start ≤ x ∧ s.stop = x + 1 ∧
          s.style = char_rich_style (cellD line (x - 1))) := by
  intro xs
  induction xs with
  | nil => intro pos _ _ _ s hs; exact absurd hs (List.not_mem_nil s)
  | cons x xs ih =>
    intro pos hb hpos hsort s hs
    have hb' : ∀ z ∈ xs, z < n := fun z hz => hb z (List.mem_cons_of_mem x hz)
    have hpos' : ∀ z ∈ xs, pos ≤ z :=
      fun z hz => hpos z (List.mem_cons_of_mem x hz)
    have hsort' : List.Pairwise (· ≤ ·) xs := (List.pairwise_cons.mp hsort).2
    have hle : ∀ z ∈ xs, x ≤ z := (List.pairwise_cons.mp hsort).1
    have hov : ∀ t ∈ (if cx = some x then
        [(⟨x, x + 1, reverseStyle⟩ : Span)] else []),
        t.style = reverseStyle ∧ cx = some t.start ∧
          t.stop = t.start + 1 ∧ t.start ∈ x :: xs := by
      intro t ht
      by_cases hc : cx = some x
      · rw [if_pos hc] at ht
        rcases List.mem_singleton.mp ht with rfl
        exact ⟨rfl, hc, rfl, List.mem_cons_self x xs⟩
      · rw [if_neg hc] at ht
        exact absurd ht (List.not_mem_nil t)
    have hweak :
        ∀ t : Span, ((t.style = reverseStyle ∧ cx = some t.start ∧
            t.stop = t.start + 1 ∧ t.start ∈ xs) ∨
          (∃ z, z ∈ xs ∧ z ≠ 0 ∧ t.start ≤ z ∧ t.stop = z + 1 ∧
            t.style = char_rich_style (cellD line (z - 1)))) →
          ((t.style = reverseStyle ∧ cx = some t.start ∧
            t.stop = t.start + 1 ∧ t.start ∈ x :: xs) ∨
          (∃ z, z ∈ x :: xs ∧ z ≠ 0 ∧ t.start ≤ z ∧ t.stop = z + 1 ∧
            t.style = char_rich_style (cellD line (z - 1)))) := by
      intro t h
      rcases h with ⟨h1, h2, h3, h4⟩ | ⟨z, hz, h1, h2, h3, h4⟩
      · exact Or.inl ⟨h1, h2, h3, List.mem_cons_of_mem x h4⟩
      · exact Or.inr ⟨z, List.mem_cons_of_mem x hz, h1, h2, h3, h4⟩
    simp only [lineGo] at hs
    by_cases hx : x = 0
    · rw [if_pos hx] at hs
      rcases List.mem_append.mp hs with h | h
      · exact Or.inl (hov s h)
      · exact hweak s (ih pos hb' hpos' hsort' s h)
    · rw [if_neg hx] at hs
      by_cases hcond :
        char_style_cmp (cellD line x) (cellD line (x - 1)) = false ∨ x = n - 1
      · rw [if_pos hcond] at hs
        rcases List.mem_append.mp hs with h | h
        · rcases List.mem_cons.mp h with rfl | h
          · exact Or.inr ⟨x, List.mem_cons_self x xs, hx,
              hpos x (List.mem_cons_self x xs), rfl, rfl⟩
          · exact Or.inl (hov s h)
        · exact hweak s (ih x hb' hle hsort' s h)
      · rw [if_neg hcond] at hs
        rcases List.mem_append.mp hs with h | h
        · exact Or.inl (hov s h)
        · exact hweak s (ih pos hb' hpos' hsort' s h)

theorem lineGo_base_mem (line : List PChar) (n : Nat) (cx : Option Nat) :
    ∀ xs pos s, s ∈ lineGo line n none xs pos → s ∈ lineGo line n cx xs pos := by
  intro xs
  induction xs with
  | nil => intro pos s hs; exact absurd hs (List.not_mem_nil s)
  | cons x xs ih =>
    intro pos s hs
    simp only [lineGo] at hs ⊢
    by_cases hx : x = 0
    · rw [if_pos hx] at hs ⊢
      simp only [List.mem_append] at hs ⊢
      rcases hs with hs | hs
      · simp at hs
      · exact Or.inr (ih pos s hs)
    · rw [if_neg hx] at hs ⊢
      by_cases hcond :
        char_style_cmp (cellD line x) (cellD line (x - 1)) = false ∨ x = n - 1
      · rw [if_pos hcond] at hs ⊢
        simp only [List.cons_append, List.mem_cons, List.mem_append] at hs ⊢
        rcases hs with hs | hs | hs
        · exact Or.inl hs
        · simp at hs
        · exact Or.inr (Or.inr (ih x s hs))
      · rw [if_neg hcond] at hs ⊢
        simp only [List.mem_append] at hs ⊢
        rcases hs with hs | hs
        · simp at hs
        · exact Or.inr (ih pos s hs)

theorem lastStop_cons_of_ne_nil (s : Span) (l : List Span) (h : l ≠ []) :
    lastStop (s :: l) = lastStop l := by
  unfold lastStop
  rw [show s :: l = [s] ++ l from rfl, List.getLast?_append_of_ne_nil [s] h]

theorem ne_nil_of_lastStop {l : List Span} {m : Nat}
    (h : lastStop l = some m) : l ≠ [] := by
  intro hc
  rw [hc] at h
  exact Option.noConfusion h

theorem lineGo_lastStop (line : List PChar) (n : Nat) (hn : 2 ≤ n) :
    ∀ ys pos, lastStop (lineGo line n none (ys ++ [n - 1]) pos) = some n := by
  intro ys
  induction ys with
  | nil =>
    intro pos
    have hx : ¬ (n - 1 = 0) := by omega
    have h1 : n - 1 + 1 = n := by omega
    simp [lineGo, hx, lastStop, h1]
  | cons y ys ih =>
    intro pos
    simp only [lineGo]
    by_cases hx : y = 0
    · rw [if_pos hx]
      simpa using ih pos
    · rw [if_neg hx]
      by_cases hcond :
        char_style_cmp (cellD line y) (cellD line (y - 1)) = false ∨ y = n - 1
      · rw [if_pos hcond]
        have hne := ne_nil_of_lastStop (ih y)
        rw [show (if (none : Option Nat) = some y then
            [(⟨y, y + 1, reverseStyle⟩ : Span)] else []) = [] by simp]
        simp only [List.cons_append, List.nil_append, List.append_eq]
        rw [lastStop_cons_of_ne_nil _ _ hne]
        exact ih y
      · rw [if_neg hcond]
        simpa using ih pos

theorem chainedB_cover :
    ∀ (l : List Span) (p m : Nat), chainedB p l = true → lastStop l = some m →
      ∀ c, p ≤ c → c < m → ∃ s ∈ l, s.start ≤ c ∧ c < s.stop := by
  intro l
  induction l with
  | nil => intro p m _ hl; simp [lastStop] at hl
  | cons s rest ih =>
    intro p m hch hl c hpc hcm
    have hco : s.start = p ∧ chainedB (s.stop - 1) rest = true := by
      simpa [chainedB] using hch
    cases rest with
    | nil =>
      have hm : s.stop = m := by simpa [lastStop] using hl
      exact ⟨s, List.mem_cons_self s [], by omega, by omega⟩
    | cons t rest' =>
      by_cases hcs : c < s.stop
      · exact ⟨s, List.mem_cons_self s (t :: rest'), by omega, hcs⟩
      · have hl' : lastStop (t :: rest') = some m := by
          simpa [lastStop, List.getLast?_cons_cons] using hl
        obtain ⟨u, hu, h1, h2⟩ :=
          ih (s.stop - 1) m hco.2 hl' c (by omega) hcm
        exact ⟨u, List.mem_cons_of_mem s hu, h1, h2⟩

theorem chainedB_adjPairs :
    ∀ (l : List Span) (p : Nat), chainedB p l = true →
      ∀ q ∈ adjPairs l, q.2.start = q.1.stop - 1 := by
  intro l
  induction l with
  | nil => intro p _ q hq; simp [adjPairs] at hq
  | cons s rest ih =>
    intro p hch q hq
    cases rest with
    | nil => simp [adjPairs] at hq
    | cons t rest' =>
      have hco : s.start = p ∧ chainedB (s.stop - 1) (t :: rest') = true := by
        simpa [chainedB] using hch
      have hco2 : t.start = s.stop - 1 ∧
          chainedB (t.stop - 1) rest' = true := by
        simpa [chainedB] using hco.2
      rcases List.mem_cons.mp hq with rfl | hq'
      · exact hco2.1
      · exact ih (s.stop - 1) hco.2 q hq'

theorem lineGo_run_content (line : List PChar) (n : Nat) :
    ∀ k a pos, pos ≤ a →
      (∀ i, pos ≤ i → i < a →
        styleKey (cellD line i) = styleKey (cellD line pos)) →
      ∀ s ∈ lineGo line n none (List.range' a k) pos,
        ∀ i, s.start ≤ i → i < s.stop - 1 →
          char_style_cmp (cellD line i) (cellD line s.start) = true := by
  intro k
  induction k with
  | zero => intro a pos _ _ s hs; simp [lineGo] at hs
  | succ k ih =>
    intro a pos hpa H s hs
    rw [List.range'_succ a k 1] at hs
    simp only [lineGo] at hs
    by_cases hx : a = 0
    · rw [if_pos hx] at hs
      have hs' : s ∈ lineGo line n none (List.range' (a + 1) k) pos := by
        simpa using hs
      refine ih (a + 1) pos (by omega) ?_ s hs'
      intro i h1 h2
      have hi : i = pos := by omega
      rw [hi]
    · rw [if_neg hx] at hs
      by_cases hcond :
        char_style_cmp (cellD line a) (cellD line (a - 1)) = false ∨ a = n - 1
      · rw [if_pos hcond] at hs
        have hs2 : s = ⟨pos, a + 1, char_rich_style (cellD line (a - 1))⟩ ∨
            s ∈ lineGo line n none (List.range' (a + 1) k) a := by
          simpa using hs
        rcases hs2 with rfl | hs2
        · intro i h1 h2
          simp only [Nat.add_sub_cancel] at h2
          rw [char_style_cmp_iff]
          exact H i h1 (by omega)
        · refine ih (a + 1) a (by omega) ?_ s hs2
          intro i h1 h2
          have hi : i = a := by omega
          rw [hi]
      · rw [if_neg hcond] at hs
        have hcmp : char_style_cmp (cellD line a) (cellD line (a - 1)) = true := by
          cases hbv : char_style_cmp (cellD line a) (cellD line (a - 1))
          · exact absurd (Or.inl hbv) hcond
          · rfl
        have hs' : s ∈ lineGo line n none (List.range' (a + 1) k) pos := by
          simpa using hs
        refine ih (a + 1) pos (by omega) ?_ s hs'
        intro i h1 h2
        by_cases hia : i < a
        · exact H i h1 hia
        · have hieq : i = a := by omega
          by_cases hpa2 : pos = a
          · rw [hieq, ← hpa2]
          · have h3 : styleKey (cellD line (a - 1)) =
                styleKey (cellD line pos) := H (a - 1) (by omega) (by omega)
            have h4 : styleKey (cellD line a) =
                styleKey (cellD line (a - 1)) := (char_style_cmp_iff _ _).mp hcmp
            rw [hieq, h4, h3]

theorem lineGo_adj_change (line : List PChar) (n : Nat) :
    ∀ xs pos, (∀ x ∈ xs, x < n) → List.Pairwise (· < ·) xs →
      ∀ q ∈ adjPairs (lineGo line n none xs pos),
        char_style_cmp (cellD line q.2.start)
            (cellD line (q.2.start - 1)) = false ∧
          q.2.start ≠ 0 := by
  intro xs
  induction xs with
  | nil => intro pos _ _ q hq; simp [lineGo, adjPairs] at hq
  | cons x xs ih =>
    intro pos hb hsort q hq
    have hb' : ∀ z ∈ xs, z < n := fun z hz => hb z (List.mem_cons_of_mem x hz)
    have hsort' : List.Pairwise (· < ·) xs := (List.pairwise_cons.mp hsort).2
    have hlt : ∀ z ∈ xs, x < z := (List.pairwise_cons.mp hsort).1
    simp only [lineGo] at hq
    by_cases hx : x = 0
    · rw [if_pos hx] at hq
      exact ih pos hb' hsort' q (by simpa using hq)
    · rw [if_neg hx] at hq
      by_cases hcond :
        char_style_cmp (cellD line x) (cellD line (x - 1)) = false ∨ x = n - 1
      · rw [if_pos hcond] at hq
        have hq' : q ∈ adjPairs
            (⟨pos, x + 1, char_rich_style (cellD line (x - 1))⟩ ::
              lineGo line n none xs x) := by
          simpa using hq
        cases hrec : lineGo line n none xs x with
        | nil => rw [hrec] at hq'; simp [adjPairs] at hq'
        | cons t rest =>
          rw [hrec] at hq'
          rcases List.mem_cons.mp hq' with rfl | hq2
          · have hch := lineGo_chained line n xs x
            rw [hrec] at hch
            have hch2 : t.start = x ∧ chainedB (t.stop - 1) rest = true := by
              simpa [chainedB] using hch
            have ht : t.start = x := hch2.1
            rcases hcond with hc | hc
            · simpa [ht] using ⟨hc, hx⟩
            · exfalso
              cases xs with
              | nil => simp [lineGo] at hrec
              | cons z zs =>
                have h1 : z < n :=
                  hb z (List.mem_cons_of_mem x (List.mem_cons_self z zs))
                have h2 : x < z := hlt z (List.mem_cons_self z zs)
                omega
          · exact ih x hb' hsort' q (by rw [hrec]; exact hq2)
      · rw [if_neg hcond] at hq
        exact ih pos hb' hsort' q (by simpa using hq)

theorem filter_ov_append (cx : Option Nat) (x : Nat) (l : List Span) :
    ((if cx = some x then [(⟨x, x + 1, reverseStyle⟩ : Span)] else []) ++
        l).filter (fun s => decide (s.style = reverseStyle)) =
      (if cx = some x then [(⟨x, x + 1, reverseStyle⟩ : Span)] else []) ++
        l.filter (fun s => decide (s.style = reverseStyle)) := by
  by_cases hc : cx = some x <;> simp [hc]

theorem filter_cx_cons (cx : Option Nat) (x : Nat) (xs : List Nat) :
    ((x :: xs).filter (fun z => decide (cx = some z))).map
        (fun z => (⟨z, z + 1, reverseStyle⟩ : Span)) =
      (if cx = some x then [(⟨x, x + 1, reverseStyle⟩ : Span)] else []) ++
        (xs.filter (fun z => decide (cx = some z))).map
          (fun z => (⟨z, z + 1, reverseStyle⟩ : Span)) := by
  by_cases hc : cx = some x <;> simp [List.filter_cons, hc]

theorem lineGo_filter_overlay (line : List PChar) (n : Nat) (cx : Option Nat) :
    ∀ xs pos,
      (lineGo line n cx xs pos).filter
          (fun s => decide (s.style = reverseStyle)) =
        (xs.filter (fun x => decide (cx = some x))).map
          (fun x => (⟨x, x + 1, reverseStyle⟩ : Span)) := by
  intro xs
  induction xs with
  | nil => intro pos; rfl
  | cons x xs ih =>
    intro pos
    rw [filter_cx_cons]
    simp only [lineGo]
    by_cases hx : x = 0
    · rw [if_pos hx, filter_ov_append, ih pos]
    · rw [if_neg hx]
      by_cases hcond :
        char_style_cmp (cellD line x) (cellD line (x - 1)) = false ∨ x = n - 1
      · rw [if_pos hcond, List.cons_append, List.filter_cons]
        have hpspan :
            (decide (char_rich_style (cellD line (x - 1)) = reverseStyle))
              = false :=
          decide_eq_false (char_rich_style_ne_reverseStyle _)
        rw [hpspan]
        simp only [Bool.false_eq_true, if_false]
        rw [filter_ov_append, ih x]
      · rw [if_neg hcond, filter_ov_append, ih pos]

theorem filter_range_eq (n k : Nat) :
    (List.range n).filter (fun x => decide (k = x)) =
      if k < n then [k] else [] := by
  induction n with
  | zero => simp
  | succ n ih =>
    rw [List.range_succ, List.filter_append, ih]
    by_cases h : k = n
    · subst h
      simp [Nat.lt_irrefl, Nat.lt_succ_self]
    · have hkn : decide (k = n) = false := by simp [h]
      by_cases h2 : k < n
      · simp [hkn, h2, Nat.lt_succ_of_lt h2]
      · have h3 : ¬ k < n + 1 := by omega
        simp [hkn, h2, h3]

theorem sum_indicator_range (n k : Nat) (hk : k < n) :
    (((List.range n).map (fun y => if k = y then 1 else 0)).sum) = 1 := by
  induction n with
  | zero => omega
  | succ n ih =>
    rw [List.range_succ, List.map_append, List.sum_append]
    by_cases h : k = n
    · subst h
      have hz : (((List.range k).map (fun y => if k = y then 1 else 0)).sum) = 0 := by
        apply List.sum_eq_zero
        intro a ha
        rcases List.mem_map.mp ha with ⟨y, hy, rfl⟩
        have : k ≠ y := by
          have := List.mem_range.mp hy
          omega
        simp [this]
      simp [hz]
    · have hkn : k < n := by omega
      simp [ih hkn, h]

theorem renderLineSpans_def (line : List PChar) :
    renderLineSpans line =
      lineGo line line.length none (List.range line.length) 0 := rfl

theorem renderLine_spans (g : Grid) (y : Nat) :
    (renderLine g y).spans =
      lineGo ((List.range g.cols).map (fun x => g.cell y x)) g.cols
        (if g.cursorY = y then some g.cursorX else none)
        (List.range g.cols) 0 := rfl

/-- A default cell with the bold attribute set. -/
def boldChar : PChar := { defaultChar with bold := true }

/-! ## Screen renderer: styled runs (claim C1) -/

/-- C1 counterexample.  Two cells `[default, bold]`: the loop emits the
single span `[0, 2)` carrying the DEFAULT cell's style, although cell 1 is
bold — refuting "each run is closed with the style of the cells it covers".
Four cells `[default, default, bold, bold]`: the spans `[0, 3)` and `[2, 4)`
overlap at column 2 — refuting "no overlapping spans". -/
theorem claim_C1_counterexample :
    renderLineSpans [defaultChar, boldChar] =
      [⟨0, 2, char_rich_style defaultChar⟩] ∧
    char_rich_style boldChar ≠ char_rich_style defaultChar ∧
    renderLineSpans [defaultChar, defaultChar, boldChar, boldChar] =
      [⟨0, 3, char_rich_style defaultChar⟩,
       ⟨2, 4, char_rich_style boldChar⟩] := by
  decide

/-- C1 (amended): for a row of at most one column no span is emitted; for a
row of `n ≥ 2` columns the emitted spans form a nonempty chain starting at
column 0, ending at column `n`, in which each following span starts one
column BEFORE the previous span's stop (so consecutive spans overlap in
exactly that one column); each span `[start, stop)` satisfies
`2 ≤ stop ≤ n`, carries the resolved style of the cell at `stop - 2` (the
cell before the closing column — the closing column's own cell may differ
in style), and all cells in `[start, stop - 1)` share one style tuple;
every span boundary but the final column marks a genuine style change. -/
theorem claim_C1_amended (line : List PChar) :
    (line.length ≤ 1 → renderLineSpans line = []) ∧
    (2 ≤ line.length →
      renderLineSpans line ≠ [] ∧
      chainedB 0 (renderLineSpans line) = true ∧
      lastStop (renderLineSpans line) = some line.length ∧
      (∀ c, c < line.length →
        ∃ s ∈ renderLineSpans line, s.start ≤ c ∧ c < s.stop) ∧
      (∀ s ∈ renderLineSpans line,
        s.start < s.stop ∧ 2 ≤ s.stop ∧ s.stop ≤ line.length ∧
        s.style = char_rich_style (cellD line (s.stop - 2)) ∧
        (∀ i, s.start ≤ i → i < s.stop - 1 →
          char_style_cmp (cellD line i) (cellD line s.start) = true)) ∧
      (∀ q ∈ adjPairs (renderLineSpans line),
        q.2.start = q.1.stop - 1 ∧
        char_style_cmp (cellD line q.2.start)
          (cellD line (q.2.start - 1)) = false)) := by
  constructor
  · intro h
    match line, h with
    | [], _ => rfl
    | [c], _ => simp [renderLineSpans, lineGo, List.range_succ]
  · intro hn
    have hchain : chainedB 0 (renderLineSpans line) = true :=
      lineGo_chained line line.length (List.range line.length) 0
    have hsplit : List.range line.length =
        List.range (line.length - 1) ++ [line.length - 1] := by
      conv_lhs => rw [show line.length = (line.length - 1) + 1 by omega]
      exact List.range_succ (line.length - 1)
    have hlast : lastStop (renderLineSpans line) = some line.length := by
      rw [renderLineSpans_def, hsplit]
      exact lineGo_lastStop line line.length hn (List.range (line.length - 1)) 0
    refine ⟨ne_nil_of_lastStop hlast, hchain, hlast, ?_, ?_, ?_⟩
    · intro c hc
      exact chainedB_cover _ 0 line.length hchain hlast c (Nat.zero_le c) hc
    · intro s hs
      have hshape := lineGo_shape line line.length none
        (List.range line.length) 0
        (fun x hx => List.mem_range.mp hx) (fun x _ => Nat.zero_le x)
        ((List.pairwise_lt_range line.length).imp (fun h => Nat.le_of_lt h)) s
        (by rwa [renderLineSpans_def] at hs)
      rcases hshape with ⟨_, hcx, _, _⟩ | ⟨x, hxmem, hx0, hle, hstop, hstyle⟩
      · exact absurd hcx (by simp)
      · have hxlt : x < line.length := List.mem_range.mp hxmem
        have hstop2 : s.stop - 2 = x - 1 := by omega
        refine ⟨by omega, by omega, by omega, by rw [hstop2]; exact hstyle, ?_⟩
        have hmem' : s ∈ lineGo line line.length none
            (List.range' 0 line.length) 0 := by
          rw [← List.range_eq_range']
          rwa [renderLineSpans_def] at hs
        exact lineGo_run_content line line.length line.length 0 0
          (Nat.le_refl 0) (fun i h1 h2 => absurd h2 (Nat.not_lt_zero i)) s
          hmem'
    · intro q hq
      refine ⟨chainedB_adjPairs (renderLineSpans line) 0 hchain q hq, ?_⟩
      exact (lineGo_adj_change line line.length (List.range line.length) 0
        (fun x hx => List.mem_range.mp hx)
        (List.pairwise_lt_range line.length) q
        (by rwa [renderLineSpans_def] at hq)).1

/-- C1 amended, instantiated on the two-cell row `[default, bold]`. -/
theorem claim_C1_witness :
    renderLineSpans [defaultChar, boldChar] ≠ [] ∧
    chainedB 0 (renderLineSpans [defaultChar, boldChar]) = true ∧
    lastStop (renderLineSpans [defaultChar, boldChar]) = some 2 :=
  have h := (claim_C1_amended [defaultChar, boldChar]).2 (by decide)
  ⟨h.1, h.2.1, h.2.2.1⟩

/-! ## Resolved run styles carry only color, bgcolor, bold (claim C10) -/

/-- C10: every style run emitted by the renderer is built by
`char_rich_style`, which sets only the resolved foreground, resolved
background and the bold flag; the italics, underscore, strikethrough,
reverse and blink attributes stay unset in every emitted run style, even
though `char_style_cmp` — which decides the run boundaries — compares all
eight attributes of the cell tuple. -/
theorem claim_C10 :
    (∀ (line : List PChar) (s : Span), s ∈ renderLineSpans line →
      s.style.italic = none ∧ s.style.underline = none ∧
      s.style.strike = none ∧ s.style.reverse = none ∧
      s.style.blink = none) ∧
    (∀ c d : PChar, char_style_cmp c d = true ↔
      (c.fg = d.fg ∧ c.bg = d.bg ∧ c.bold = d.bold ∧ c.italics = d.italics ∧
       c.underscore = d.underscore ∧ c.strikethrough = d.strikethrough ∧
       c.reverse = d.reverse ∧ c.blink = d.blink)) ∧
    (∀ c : PChar, (char_rich_style c).color = some (detect_color c.fg) ∧
      (char_rich_style c).bgcolor = some (detect_color c.bg) ∧
      (char_rich_style c).bold = some c.bold) := by
  refine ⟨?_, ?_, fun c => ⟨rfl, rfl, rfl⟩⟩
  · intro line s hs
    have hshape := lineGo_shape line line.length none
      (List.range line.length) 0
      (fun x hx => List.mem_range.mp hx) (fun x _ => Nat.zero_le x)
      ((List.pairwise_lt_range line.length).imp (fun h => Nat.le_of_lt h)) s
      (by rwa [renderLineSpans_def] at hs)
    rcases hshape with ⟨_, hcx, _, _⟩ | ⟨x, _, _, _, _, hstyle⟩
    · exact absurd hcx (by simp)
    · rw [hstyle]
      exact ⟨rfl, rfl, rfl, rfl, rfl⟩
  · intro c d
    rw [char_style_cmp_iff]
    simp [styleKey, Prod.ext_iff]

/-- C10 instantiated: the style of the single run of `[default, bold]` has
all five non-carried attributes unset. -/
theorem claim_C10_witness :
    ((⟨0, 2, char_rich_style defaultChar⟩ : Span).style.italic = none) ∧
    ((⟨0, 2, char_rich_style defaultChar⟩ : Span).style.reverse = none) :=
  have h := claim_C10.1 [defaultChar, boldChar]
    ⟨0, 2, char_rich_style defaultChar⟩ (by decide)
  ⟨h.1, h.2.2.2.1⟩

/-! ## Snapshot geometry after SetSize (claim C3) -/

/-- The grid state after `SetSize(rows=40, cols=10)`:
`on_resize` calls `self._screen.resize(self.nrow, self.ncol)` with
`nrow = 40`, `ncol = 10`, so `screen.lines = 40` and `screen.columns = 10`
(default cells, cursor at the origin). -/
def g40x10 : Grid := ⟨40, 10, fun _ _ => defaultChar, 0, 0⟩

/-- C3 counterexample: after `SetSize(rows=40, cols=10)` the snapshot has
40 display lines (one per row), not 10, and the spans of a line span at most
10 columns, not 40. -/
theorem claim_C3_counterexample :
    (renderSnapshot g40x10).length = 40 ∧
    (renderSnapshot g40x10).length ≠ 10 ∧
    (∀ s ∈ (renderLine g40x10 0).spans, s.stop ≤ 10) := by
  have h : (renderSnapshot g40x10).length = 40 := by
    simp [renderSnapshot, g40x10]
  refine ⟨h, by omega, by decide⟩

/-- C3 (amended): after `SetSize(rows=40, cols=10)` the rendered snapshot
contains exactly 40 display lines — one per row — and every line's runs
cover exactly the 10 columns: each column `c < 10` lies inside some span
and every span stays inside `[0, 10)`. -/
theorem claim_C3_amended (cells : Nat → Nat → PChar) (cx cy : Nat) :
    (renderSnapshot ⟨40, 10, cells, cx, cy⟩).length = 40 ∧
    (∀ l ∈ renderSnapshot ⟨40, 10, cells, cx, cy⟩,
      (∀ c, c < 10 → ∃ s ∈ l.spans, s.start ≤ c ∧ c < s.stop) ∧
      (∀ s ∈ l.spans, s.start < s.stop ∧ s.stop ≤ 10)) := by
  constructor
  · simp [renderSnapshot]
  · intro l hl
    rcases List.mem_map.mp hl with ⟨y, hy, rfl⟩
    have hsp : (renderLine (⟨40, 10, cells, cx, cy⟩ : Grid) y).spans =
        lineGo ((List.range 10).map (fun x => cells y x)) 10
          (if cy = y then some cx else none) (List.range 10) 0 := rfl
    constructor
    · intro c hc
      have hchain := lineGo_chained
        ((List.range 10).map (fun x => cells y x)) 10 (List.range 10) 0
      have hlast := lineGo_lastStop
        ((List.range 10).map (fun x => cells y x)) 10 (by omega)
        (List.range 9) 0
      have hlast' : lastStop (lineGo ((List.range 10).map
          (fun x => cells y x)) 10 none (List.range 10) 0) = some 10 := by
        rw [show List.range 10 = List.range 9 ++ [10 - 1] from
          List.range_succ 9]
        exact hlast
      obtain ⟨s, hsmem, h1, h2⟩ := chainedB_cover _ 0 10 hchain hlast' c
        (Nat.zero_le c) hc
      refine ⟨s, ?_, h1, h2⟩
      rw [hsp]
      exact lineGo_base_mem _ 10 _ (List.range 10) 0 s hsmem
    · intro s hs
      have hshape := lineGo_shape
        ((List.range 10).map (fun x => cells y x)) 10
        (if cy = y then some cx else none) (List.range 10) 0
        (fun x hx => List.mem_range.mp hx) (fun x _ => Nat.zero_le x)
        ((List.pairwise_lt_range 10).imp (fun h => Nat.le_of_lt h)) s
        (by rwa [hsp] at hs)
      rcases hshape with ⟨_, _, hstop, hmem⟩ | ⟨x, hxmem, _, hle, hstop, _⟩
      · have := List.mem_range.mp hmem
        omega
      · have := List.mem_range.mp hxmem
        omega

/-- C3 amended, instantiated: in the default 40×10 snapshot, column 3 of
the first display line is covered by one of its spans. -/
theorem claim_C3_witness :
    ∃ s ∈ (renderLine g40x10 0).spans, s.start ≤ 3 ∧ 3 < s.stop := by
  have h := (claim_C3_amended (fun _ _ => defaultChar) 0 0).2
  have hm : renderLine g40x10 0 ∈ renderSnapshot g40x10 :=
    List.mem_map_of_mem (renderLine g40x10)
      (List.mem_range.mpr (by omega : (0 : Nat) < 40))
  exact (h (renderLine g40x10 0) hm).1 3 (by omega)

/-! ## Cursor overlay (claim C4) -/

/-- A 1-row, 2-column grid of default cells with the cursor at the
origin. -/
def g2x1 : Grid := ⟨1, 2, fun _ _ => defaultChar, 0, 0⟩

/-- C4 counterexample: with the cursor at (0,0) on a uniform 2-column row,
the reverse overlay span is appended FIRST (during the column-0 iteration)
and the base span `[0, 2)` covering the cursor cell is appended after it —
refuting "the overlay is applied after ... the base style of the run
covering that cell". -/
theorem claim_C4_counterexample :
    (renderLine g2x1 0).spans =
      [⟨0, 1, reverseStyle⟩, ⟨0, 2, char_rich_style defaultChar⟩] ∧
    (renderLine g2x1 0).spans.head? = some ⟨0, 1, reverseStyle⟩ ∧
    reverseStyle ≠ char_rich_style defaultChar := by
  decide

/-- C4 (amended): when the grid's cursor lies within
`[0, cols) × [0, rows)` (which the pyte screen guarantees), exactly one
reverse-overlay span exists in the whole snapshot: it sits in the cursor's
row, covers exactly `[cursorX, cursorX + 1)`, and carries the pure reverse
style; every other span of the snapshot is a base run whose style leaves
the reverse attribute unset (so the overlay's reverse rendering survives
even when the base span covering that cell is appended after it — the
overlay is appended during the cursor column's iteration, which may come
BEFORE the covering base span, not after it). -/
theorem claim_C4_amended (g : Grid) (hx : g.cursorX < g.cols)
    (hy : g.cursorY < g.rows) :
    ((renderLine g g.cursorY).spans.filter
        (fun s => decide (s.style = reverseStyle))) =
      [⟨g.cursorX, g.cursorX + 1, reverseStyle⟩] ∧
    (∀ y, y ≠ g.cursorY →
      (renderLine g y).spans.filter
        (fun s => decide (s.style = reverseStyle)) = []) ∧
    (((renderSnapshot g).map
        (fun l => (l.spans.filter
          (fun s => decide (s.style = reverseStyle))).length)).sum = 1) ∧
    (∀ l ∈ renderSnapshot g, ∀ s ∈ l.spans, s.style ≠ reverseStyle →
      s.style.reverse = none) ∧
    (∀ l ∈ renderSnapshot g, ∀ s ∈ l.spans, s.style = reverseStyle →
      s.start = g.cursorX ∧ s.stop = g.cursorX + 1) := by
  have hfilter : ∀ y, (renderLine g y).spans.filter
      (fun s => decide (s.style = reverseStyle)) =
      if g.cursorY = y then
        (if g.cursorX < g.cols then
          [(⟨g.cursorX, g.cursorX + 1, reverseStyle⟩ : Span)] else [])
      else [] := by
    intro y
    rw [renderLine_spans, lineGo_filter_overlay]
    by_cases hcy : g.cursorY = y
    · rw [if_pos hcy, if_pos hcy]
      have hcg : (List.range g.cols).filter
          (fun x => decide (some g.cursorX = some x)) =
          (List.range g.cols).filter (fun x => decide (g.cursorX = x)) :=
        List.filter_congr (fun x _ => by simp)
      rw [hcg, filter_range_eq]
      by_cases hlt : g.cursorX < g.cols
      · rw [if_pos hlt, if_pos hlt]
        rfl
      · rw [if_neg hlt, if_neg hlt]
        rfl
    · rw [if_neg hcy, if_neg hcy]
      have hnone : (List.range g.cols).filter
          (fun x => decide ((none : Option Nat) = some x)) = [] := by
        simp
      rw [hnone]
      rfl
  have hshape : ∀ y, ∀ s ∈ (renderLine g y).spans,
      (s.style = reverseStyle ∧
        (if g.cursorY = y then some g.cursorX else none) = some s.start ∧
        s.stop = s.start + 1) ∨
      s.style.reverse = none := by
    intro y s hs
    have h := lineGo_shape ((List.range g.cols).map (fun x => g.cell y x))
      g.cols (if g.cursorY = y then some g.cursorX else none)
      (List.range g.cols) 0
      (fun x hx => List.mem_range.mp hx) (fun x _ => Nat.zero_le x)
      ((List.pairwise_lt_range g.cols).imp (fun h => Nat.le_of_lt h)) s
      (by rwa [renderLine_spans] at hs)
    rcases h with ⟨h1, h2, h3, _⟩ | ⟨x, _, _, _, _, hstyle⟩
    · exact Or.inl ⟨h1, h2, h3⟩
    · exact Or.inr (by rw [hstyle]; rfl)
  refine ⟨?_, ?_, ?_, ?_, ?_⟩
  · rw [hfilter g.cursorY, if_pos rfl, if_pos hx]
  · intro y hyne
    rw [hfilter y, if_neg (fun h => hyne h.symm)]
  · have hmapmap : (renderSnapshot g).map
        (fun l => (l.spans.filter
          (fun s => decide (s.style = reverseStyle))).length) =
        (List.range g.rows).map
          (fun y => if g.cursorY = y then 1 else 0) := by
      rw [renderSnapshot, List.map_map]
      refine List.map_congr_left ?_
      intro y _
      simp only [Function.comp]
      rw [hfilter y]
      by_cases hcy : g.cursorY = y
      · rw [if_pos hcy, if_pos hcy, if_pos hx]
        rfl
      · rw [if_neg hcy, if_neg hcy]
        rfl
    rw [hmapmap]
    exact sum_indicator_range g.rows g.cursorY hy
  · intro l hl s hs hne
    rcases List.mem_map.mp hl with ⟨y, _, rfl⟩
    rcases hshape y s hs with ⟨h1, _, _⟩ | h
    · exact absurd h1 hne
    · exact h
  · intro l hl s hs hrev
    rcases List.mem_map.mp hl with ⟨y, _, rfl⟩
    rcases hshape y s hs with ⟨_, h2, h3⟩ | h
    · by_cases hcy : g.cursorY = y
      · rw [if_pos hcy] at h2
        have : g.cursorX = s.start := by
          simpa using h2
        exact ⟨this.symm, by omega⟩
      · rw [if_neg hcy] at h2
        exact absurd h2 (by simp)
    · rw [hrev] at h
      exact absurd h (by simp [reverseStyle])

/-- C4 amended, instantiated on the 1×2 default grid with cursor (0,0). -/
theorem claim_C4_witness :
    (renderLine g2x1 0).spans.filter
      (fun s => decide (s.style = reverseStyle)) = [⟨0, 1, reverseStyle⟩] :=
  (claim_C4_amended g2x1 (by decide) (by decide)).1

/-! ## Color resolver (claim C2) -/

theorem matchHex6_iff (s : String) :
    matchHex6 s = true ↔
      6 ≤ s.toList.length ∧ ∀ c ∈ s.toList.take 6, isHexCI c = true := by
  simp only [matchHex6, Bool.and_eq_true, decide_eq_true_eq, List.all_eq_true,
    List.length_take]
  rw [min_eq_left_iff]

/-- C2 counterexample: `"aabbcc00"` is not a bare six-hex-digit token, so
the claim says it passes through unchanged; `detect_color` nevertheless
prefixes it with `#` because `re.match` only anchors the first six
characters. -/
theorem claim_C2_counterexample :
    detect_color "aabbcc00" = "#aabbcc00" ∧
      detect_color "aabbcc00" ≠ "aabbcc00" := by
  decide

/-- C2 (amended): `brown` maps to `yellow`, `brightblack` to the fixed gray
`#808080`, `default` passes through, and for any other token the `#` prefix
is attached exactly when the token's FIRST six characters are hex digits
(case-insensitive) — tokens longer than six characters with a six-hex-digit
prefix are also rewritten; every remaining token is returned unchanged. -/
theorem claim_C2_amended (s : String) :
    detect_color "brown" = "yellow" ∧
    detect_color "brightblack" = "#808080" ∧
    detect_color "default" = "default" ∧
    (s ≠ "brown" → s ≠ "brightblack" →
      ((6 ≤ s.toList.length ∧ ∀ c ∈ s.toList.take 6, isHexCI c = true) →
        detect_color s = "#" ++ s) ∧
      (¬ (6 ≤ s.toList.length ∧ ∀ c ∈ s.toList.take 6, isHexCI c = true) →
        detect_color s = s)) := by
  refine ⟨by decide, by decide, by decide, ?_⟩
  intro hb hbb
  constructor
  · intro h
    have hm : matchHex6 s = true := (matchHex6_iff s).mpr h
    simp [detect_color, hb, hbb, hm]
  · intro h
    have hm : matchHex6 s = false := by
      cases hmx : matchHex6 s
      · rfl
      · exact absurd ((matchHex6_iff s).mp hmx) h
    simp [detect_color, hb, hbb, hm]

/-- C2 amended, instantiated: the six-hex branch at `"AABBCC"` and the
pass-through branch at `"red"`. -/
theorem claim_C2_witness :
    detect_color "AABBCC" = "#AABBCC" ∧ detect_color "red" = "red" :=
  ⟨(((claim_C2_amended "AABBCC").2.2.2 (by decide) (by decide)).1
      (by decide)).trans (by decide),
   ((claim_C2_amended "red").2.2.2 (by decide) (by decide)).2 (by decide)⟩

/-! ## Mode scanner (claim C5) -/

theorem lastD_append (xs ys : List Bool) (m : Bool) :
    lastD (xs ++ ys) m = lastD ys (lastD xs m) := by
  simp [lastD, List.foldl_append]

theorem updateMT_eq_getD (p : List (List Char)) (m : Bool) :
    updateMT p m = (seqEffect p).getD m := by
  unfold updateMT seqEffect
  cases hl : p.contains "1000l".toList <;>
    cases hh : p.contains "1000h".toList <;> simp [hl, hh]

theorem scanAux_eq_lastD (fuel : Nat) :
    ∀ l m, scanAux fuel l m = lastD (mouseTokensAux fuel l) m := by
  induction fuel with
  | zero => intro l m; rfl
  | succ fuel ih =>
    intro l m
    cases l with
    | nil => rfl
    | cons c cs =>
      simp only [scanAux, mouseTokensAux]
      cases htm : tryMatch (c :: cs) with
      | some r =>
        obtain ⟨q, body, tail⟩ := r
        simp only
        rw [ih, lastD_append]
        cases q
        · simp [lastD]
        · rw [updateMT_eq_getD]
          cases hse : seqEffect (splitSemiAux body []) <;> simp [lastD, hse]
      | none => exact ih cs m

/-- C5: processing a `stdout` chunk updates `mouse_tracking` to the value
assigned by the LAST `1000h`/`1000l` token found in the parameter list of a
`?`-prefixed CSI sequence of the chunk, and leaves the flag untouched when
no such token occurs — in particular CSI sequences without the `?` prefix,
and all other chunk content, never change the flag (they contribute no
element to `mouseTokens`). -/
theorem claim_C5 (s : String) (m : Bool) :
    scanChunk s m = lastD (mouseTokens s) m ∧
    (mouseTokens s = [] → scanChunk s m = m) := by
  have h := scanAux_eq_lastD s.toList.length s.toList m
  refine ⟨h, fun he => ?_⟩
  unfold scanChunk mouseTokens at *
  rw [h, he]
  rfl

/-- C5 instantiated: a chunk holding only a non-`?` CSI sequence leaves the
flag unchanged. -/
theorem claim_C5_witness : scanChunk "ab\x1b[31m" true = true :=
  (claim_C5 "ab\x1b[31m" true).2 (by decide)

/-! ## Click handler (claim C6) -/

/-- C6: a `Click` message with zero-indexed `(x, y)` and button 1 writes
exactly the SGR press/release pair `ESC[<0;x+1;y+1M` then `ESC[<0;x+1;y+1m`
to the fd; any other button value writes nothing. -/
theorem claim_C6 (x y b : Nat) :
    handleClick x y 1 =
      ["\x1b[<0;" ++ toString (x + 1) ++ ";" ++ toString (y + 1) ++ "M",
       "\x1b[<0;" ++ toString (x + 1) ++ ";" ++ toString (y + 1) ++ "m"] ∧
    handleClick 5 3 1 = ["\x1b[<0;6;4M", "\x1b[<0;6;4m"] ∧
    (b ≠ 1 → handleClick x y b = []) := by
  refine ⟨rfl, by decide, fun hb => ?_⟩
  simp [handleClick, hb]

/-- C6 instantiated at the spec's example: click (5, 3) button 1 yields
`ESC[<0;6;4M`/`ESC[<0;6;4m`; button 2 yields nothing. -/
theorem claim_C6_witness :
    handleClick 5 3 1 = ["\x1b[<0;6;4M", "\x1b[<0;6;4m"] ∧
      handleClick 5 3 2 = [] :=
  ⟨(claim_C6 5 3 2).2.1, (claim_C6 5 3 2).2.2 (by decide)⟩

/-! ## Resize handler (claim C7) -/

/-- C7 is violated by the code: `SetSize(0, 0)` issues the `TIOCSWINSZ`
ioctl with rows = 0 and cols = 0 (no clamping to 1×1), and a negative
dimension makes `struct.pack("HH", ...)` raise an uncaught `struct.error`
(modelled as `none`), killing the `_run` message loop. -/
theorem claim_C7_bug :
    setSizeIoctl 0 0 = some (0, 0) ∧ setSizeIoctl (-1) 10 = none := by
  decide

/-! ## Stdin handler (claim C8) -/

/-- C8 is violated by the code: one Stdin payload triggers exactly one raw
`write` call whose result is ignored, so when the unbuffered fd accepts only
one character of the two-character payload `"ab"`, a single character is
delivered and the remainder is dropped — there is no retry loop. -/
theorem claim_C8_bug :
    stdinWriteCalls "ab" = ["ab"] ∧ stdinDelivered "ab" 1 = 1 ∧
      "ab".toList.length = 2 := by
  decide

/-! ## Disconnect protocol (claim C9)

The reader/relay pair of `TerminalEmulator`: `_run` registers `on_output`
as the fd-readiness callback and puts `["setup", {}]` once; `on_output`
either stores decoded data in the single slot `data_or_disconnect` and sets
the event, or — on any I/O error — unregisters itself
(`loop.remove_reader`, so it never fires again), stores `None` and sets the
event; `_send_data` waits on the event, clears it, and forwards one
`stdout` message when the slot holds data or one `disconnect` message when
it holds `None`.  The asyncio event loop interleaves these atomically. -/

/-- An outbound message of the bridge. -/
inductive OutMsg where
  | setup : OutMsg
  | stdout : String → OutMsg
  | disconnect : OutMsg
deriving DecidableEq, Repr

/-- The shared state of the reader/relay pair: whether the fd-readiness
callback is still registered, the single `data_or_disconnect` slot
(`some data` or `none` for a terminal error), the `asyncio.Event` flag, and
the ordered outbound channel contents. -/
structure BridgeState where
  readerOn : Bool
  slot : Option String
  event : Bool
  out : List OutMsg
deriving DecidableEq, Repr

/-- The state right after `_run` starts: callback registered, slot empty,
event clear, `setup` already emitted. -/
def initBridge : BridgeState := ⟨true, none, false, [OutMsg.setup]⟩

/-- One atomic turn of the event loop: `data` is `on_output` reading a
chunk, `ioError` is `on_output` hitting a terminal I/O error (unregister,
store `None`, set event), `sendWake` is `_send_data` waking, clearing the
event, and forwarding the slot as `stdout`/`disconnect`. -/
inductive BridgeStep : BridgeState → BridgeState → Prop where
  | data (s : BridgeState) (d : String) (h : s.readerOn = true) :
      BridgeStep s ⟨s.readerOn, some d, true, s.out⟩
  | ioError (s : BridgeState) (h : s.readerOn = true) :
      BridgeStep s ⟨false, none, true, s.out⟩
  | sendWake (s : BridgeState) (h : s.event = true) :
      BridgeStep s ⟨s.readerOn, s.slot, false,
        s.out ++ [match s.slot with
                  | some d => OutMsg.stdout d
                  | none => OutMsg.disconnect]⟩

/-- States reachable from start by event-loop turns. -/
inductive BridgeReachable : BridgeState → Prop where
  | init : BridgeReachable initBridge
  | step {s t : BridgeState} :
      BridgeReachable s → BridgeStep s t → BridgeReachable t

/-- Inductive invariant: once the event is set with an empty slot the
reader is gone, and once `disconnect` has been emitted the reader is gone,
the slot is empty, the event is clear, and `disconnect` is the single last
message. -/
def BridgeInv (s : BridgeState) : Prop :=
  (s.event = true → s.slot = none → s.readerOn = false) ∧
  (OutMsg.disconnect ∈ s.out →
    s.readerOn = false ∧ s.slot = none ∧ s.event = false ∧
    s.out.getLast? = some OutMsg.disconnect ∧
    s.out.count OutMsg.disconnect = 1)

theorem bridgeInv_step {s t : BridgeState} (hinv : BridgeInv s)
    (hstep : BridgeStep s t) : BridgeInv t := by
  cases hstep with
  | data d h =>
    constructor
    · intro _ hsl
      exact absurd hsl (by simp)
    · intro hd
      have hro := (hinv.2 hd).1
      rw [h] at hro
      exact absurd hro (by simp)
  | ioError h =>
    constructor
    · intro _ _
      rfl
    · intro hd
      have hro := (hinv.2 hd).1
      rw [h] at hro
      exact absurd hro (by simp)
  | sendWake h =>
    constructor
    · intro he _
      exact absurd he (by simp)
    · intro hd
      cases hsl : s.slot with
      | some d =>
        rw [hsl] at hd
        simp only at hd
        have hd' : OutMsg.disconnect ∈ s.out := by
          rcases List.mem_append.mp hd with h1 | h1
          · exact h1
          · simp at h1
        have hev := (hinv.2 hd').2.2.1
        rw [h] at hev
        exact absurd hev (by simp)
      | none =>
        have hroff : s.readerOn = false := hinv.1 h hsl
        have hnd : OutMsg.disconnect ∉ s.out := by
          intro hmem
          have hev := (hinv.2 hmem).2.2.1
          rw [h] at hev
          exact absurd hev (by simp)
        refine ⟨hroff, rfl, rfl, ?_, ?_⟩
        · show (s.out ++ [OutMsg.disconnect]).getLast? = some OutMsg.disconnect
          rw [List.getLast?_append_of_ne_nil s.out (by simp)]
          rfl
        · show (s.out ++ [OutMsg.disconnect]).count OutMsg.disconnect = 1
          rw [List.count_append, List.count_eq_zero.mpr hnd]
          rfl

theorem bridgeInv_reachable {s : BridgeState} (h : BridgeReachable s) :
    BridgeInv s := by
  induction h with
  | init => exact ⟨by simp [initBridge], by simp [initBridge]⟩
  | step hr hst ih => exact bridgeInv_step ih hst

/-- C9: in every reachable state of the reader/relay pair, `disconnect` has
been emitted at most once; and once it is in the outbound channel it is the
last message, it occurs exactly once, and no further event-loop turn can
emit anything (the reader callback is unregistered and the event stays
clear, so the relay never wakes again). -/
theorem claim_C9 (s : BridgeState) (hreach : BridgeReachable s) :
    s.out.count OutMsg.disconnect ≤ 1 ∧
    (OutMsg.disconnect ∈ s.out →
      s.out.getLast? = some OutMsg.disconnect ∧
      s.out.count OutMsg.disconnect = 1 ∧
      (∀ t, BridgeStep s t → t.out = s.out)) := by
  have hinv := bridgeInv_reachable hreach
  have hmain : OutMsg.disconnect ∈ s.out →
      s.out.getLast? = some OutMsg.disconnect ∧
      s.out.count OutMsg.disconnect = 1 ∧
      (∀ t, BridgeStep s t → t.out = s.out) := by
    intro hd
    obtain ⟨hro, hsl, hev, hlast, hcount⟩ := hinv.2 hd
    refine ⟨hlast, hcount, ?_⟩
    intro t hstep
    cases hstep with
    | data _ h => exact absurd (hro ▸ h) (by simp)
    | ioError h => exact absurd (hro ▸ h) (by simp)
    | sendWake h => exact absurd (hev ▸ h) (by simp)
  constructor
  · by_cases hd : OutMsg.disconnect ∈ s.out
    · rw [(hmain hd).2.1]
    · rw [List.count_eq_zero.mpr hd]
      omega
  · exact hmain

/-- C9 instantiated on the execution: start, I/O error, relay wake — the
outbound channel ends `[setup, disconnect]` with `disconnect` last and
emitted once. -/
theorem claim_C9_witness :
    ([OutMsg.setup, OutMsg.disconnect].getLast? = some OutMsg.disconnect) ∧
    ([OutMsg.setup, OutMsg.disconnect].count OutMsg.disconnect = 1) := by
  have hreach : BridgeReachable
      ⟨false, none, false, [OutMsg.setup, OutMsg.disconnect]⟩ :=
    BridgeReachable.step
      (BridgeReachable.step BridgeReachable.init
        (BridgeStep.ioError initBridge rfl))
      (BridgeStep.sendWake ⟨false, none, true, [OutMsg.setup]⟩ rfl)
  have h := (claim_C9 _ hreach).2 (by decide)
  exact ⟨h.1, h.2.1⟩

end TextualTerminal
